import Mathlib

deriving instance DecidableEq for Except

/-!
Verification of the Scilla interactive Solana CLI.

We give a shallow embedding of the program's core: the IEEE-754 binary64
arithmetic used by the amount validators and lamport conversions
(src/misc/helpers.rs), the string-level parsers (trim_and_parse,
Commission::from_str, SolAmount::from_str), the transaction assembler
(build_and_send_tx) and the command dispatch loop (src/main.rs), and we
prove the specification's claims about them.

Every finite binary64 value is an integer multiple of 2^-1074 (the
subnormal unit in the last place), so we model a finite double exactly as
that integer ("units"); rounding, comparison, multiplication, division and
the saturating cast to u64 then become pure integer arithmetic, which the
kernel can evaluate on concrete inputs.
-/

namespace Scilla

/-! ### Binary64 model -/

/-- Fuel-driven floor of log2 by repeated halving; adequate when the fuel is
at least n. Only used below on arguments smaller than 2^16, so that kernel
evaluation stays shallow. -/
def log2Go16 : ℕ → ℕ → ℕ
  | 0, _ => 0
  | f+1, n => if n ≤ 1 then 0 else log2Go16 f (n / 2) + 1

/-- Floor of log2, dividing by 2^16 per step; adequate when the fuel is at
least n. -/
def log2Go2 : ℕ → ℕ → ℕ
  | 0, _ => 0
  | f+1, n => if n < 2^16 then log2Go16 n n else log2Go2 f (n / 2^16) + 16

/-- Floor of log2, dividing by 2^256 per step; adequate when the fuel is at
least n. The chunking keeps the evaluation depth logarithmic in the bit
length, so the kernel can run it on multi-thousand-bit inputs. -/
def log2Go : ℕ → ℕ → ℕ
  | 0, _ => 0
  | f+1, n => if n < 2^256 then log2Go2 n n else log2Go f (n / 2^256) + 256

/-- Floor of log2 of a positive natural. -/
def log2F (n : ℕ) : ℕ := log2Go n n

/-- Floor of log2 of the ratio N / b, for 1 ≤ b ≤ N. -/
def floorLog2Pair (N b : ℕ) : ℕ :=
  let t := log2F N - log2F b
  if b * 2^t ≤ N then t else t - 1

/-- Round the ratio N / d to the nearest integer, ties to even. -/
def roundHalfEven (N d : ℕ) : ℕ :=
  let q := N / d
  let r := N % d
  if 2 * r < d then q
  else if d < 2 * r then q + 1
  else if q % 2 = 0 then q else q + 1

/-- Round the positive real a / b onto the binary64 grid, expressed in units
of 2^-1074: below 2^53 units the grid spacing is one unit (subnormals and
the smallest normal binade), above it the spacing is 2^(e-52) units where
e is the floor of log2 of the value in units. Overflow is detected by the
caller (a result of at least 2^2098 units means at least 2^1024). -/
def roundPosUnits (a b : ℕ) : ℕ :=
  if a * 2^1074 < 2^53 * b then roundHalfEven (a * 2^1074) b
  else
    roundHalfEven (a * 2^1074) (b * 2^(floorLog2Pair (a * 2^1074) b - 52)) *
      2^(floorLog2Pair (a * 2^1074) b - 52)

/-- A binary64 value: NaN, a signed infinity, or a finite value measured in
units of 2^-1074. The two IEEE zeros are merged into fin 0 (no claim in
this development distinguishes them). -/
inductive F64 where
  | nan
  | inf (neg : Bool)
  | fin (units : ℤ)
deriving DecidableEq

/-- Correctly round the exact rational n / d (d in ℕ) to binary64,
round-to-nearest ties-to-even, with IEEE overflow to infinity. -/
def roundRat (n : ℤ) (d : ℕ) : F64 :=
  if d = 0 then .nan
  else if n = 0 then .fin 0
  else if 2^2098 ≤ roundPosUnits n.natAbs d then .inf (decide (n < 0))
  else if n < 0 then .fin (-(roundPosUnits n.natAbs d : ℤ))
  else .fin ((roundPosUnits n.natAbs d : ℤ))

/-- IEEE comparison a < b (false whenever a NaN is involved). -/
def f64Lt : F64 → F64 → Bool
  | .nan, _ => false
  | _, .nan => false
  | .inf a, .inf b => a && !b
  | .inf a, .fin _ => a
  | .fin _, .inf b => !b
  | .fin x, .fin y => decide (x < y)

/-- IEEE comparison a ≤ b (false whenever a NaN is involved). -/
def f64Le : F64 → F64 → Bool
  | .nan, _ => false
  | _, .nan => false
  | .inf a, .inf b => a || !b
  | .inf a, .fin _ => a
  | .fin _, .inf b => !b
  | .fin x, .fin y => decide (x ≤ y)

/-- f64::is_finite. -/
def F64.is_finite : F64 → Bool
  | .fin _ => true
  | _ => false

/-- IEEE negation. -/
def F64.neg : F64 → F64
  | .nan => .nan
  | .inf b => .inf (!b)
  | .fin k => .fin (-k)

/-- IEEE binary64 multiplication. -/
def f64Mul : F64 → F64 → F64
  | .nan, _ => .nan
  | _, .nan => .nan
  | .inf a, .inf b => .inf (xor a b)
  | .inf a, .fin k => if k = 0 then .nan else .inf (xor a (decide (k < 0)))
  | .fin k, .inf b => if k = 0 then .nan else .inf (xor (decide (k < 0)) b)
  | .fin x, .fin y => roundRat (x * y) (2^2148)

/-- IEEE binary64 division. -/
def f64Div : F64 → F64 → F64
  | .nan, _ => .nan
  | _, .nan => .nan
  | .inf _, .inf _ => .nan
  | .inf a, .fin k => .inf (xor a (decide (k < 0)))
  | .fin _, .inf _ => .fin 0
  | .fin x, .fin y =>
    if y = 0 then (if x = 0 then .nan else .inf (decide (x < 0)))
    else if 0 < y then roundRat x y.toNat
    else roundRat (-x) (-y).toNat

/-- Rust u64 → f64 conversion (round to nearest, ties to even). -/
def u64_as_f64 (n : ℕ) : F64 := roundRat (n : ℤ) 1

/-- Rust f64 → u64 saturating cast: NaN to 0, truncation toward zero,
clamped to the u64 range. -/
def f64_as_u64 : F64 → ℕ
  | .nan => 0
  | .inf b => if b then 0 else 2^64 - 1
  | .fin k => if k < 0 then 0 else min (k.toNat / 2^1074) (2^64 - 1)

/-! ### Character-level parsing (Rust str::trim, u8::from_str, f64::from_str) -/

/-- Rust char::is_whitespace: the Unicode White_Space code points. -/
def isRustWhitespace (c : Char) : Bool :=
  c.toNat = 0x9 || c.toNat = 0xA || c.toNat = 0xB || c.toNat = 0xC ||
  c.toNat = 0xD || c.toNat = 0x20 || c.toNat = 0x85 || c.toNat = 0xA0 ||
  c.toNat = 0x1680 || (0x2000 ≤ c.toNat && c.toNat ≤ 0x200A) ||
  c.toNat = 0x2028 || c.toNat = 0x2029 || c.toNat = 0x202F ||
  c.toNat = 0x205F || c.toNat = 0x3000

/-- Rust str::trim: strip leading and trailing whitespace. -/
def trimChars (s : List Char) : List Char :=
  ((s.dropWhile isRustWhitespace).reverse.dropWhile isRustWhitespace).reverse

/-- ASCII digit test. -/
def isAsciiDigit (c : Char) : Bool := 48 ≤ c.toNat && c.toNat ≤ 57

/-- Numeric value of an ASCII digit. -/
def charDigit (c : Char) : ℕ := c.toNat - 48

/-- Split off the longest leading run of ASCII digits. -/
def takeDigits : List Char → List Char × List Char
  | [] => ([], [])
  | c :: cs =>
    if isAsciiDigit c then
      let r := takeDigits cs
      (c :: r.1, r.2)
    else ([], c :: cs)

/-- Decimal value of a digit string, with an accumulator. -/
def digitsValAux : ℕ → List Char → ℕ
  | acc, [] => acc
  | acc, c :: cs => digitsValAux (10 * acc + charDigit c) cs

/-- Decimal value of a digit string. -/
def digitsVal (s : List Char) : ℕ := digitsValAux 0 s

/-- Core of Rust u8::from_str after the optional sign: fold the digits,
failing on a non-digit or as soon as the accumulator exceeds u8::MAX. -/
def parseDigitsU8 : ℕ → List Char → Option ℕ
  | acc, [] => some acc
  | acc, c :: cs =>
    if isAsciiDigit c then
      let v := 10 * acc + charDigit c
      if v ≤ 255 then parseDigitsU8 v cs else none
    else none

/-- Rust u8::from_str: an optional leading plus sign followed by at least
one digit; the value must fit in u8. A minus sign is not accepted by the
unsigned parser. -/
def parseU8 : List Char → Option ℕ
  | [] => none
  | c :: cs =>
    if c = '+' then (if cs = [] then none else parseDigitsU8 0 cs)
    else parseDigitsU8 0 (c :: cs)

/-- Lowercase an ASCII letter (for the case-insensitive inf/nan forms). -/
def lowerChar (c : Char) : Char :=
  if 65 ≤ c.toNat && c.toNat ≤ 90 then Char.ofNat (c.toNat + 32) else c

/-- The special float forms inf, infinity and nan, case-insensitively. -/
def parseSpecial (s : List Char) : Option F64 :=
  let l := s.map lowerChar
  if l = ['i', 'n', 'f'] || l = ['i', 'n', 'f', 'i', 'n', 'i', 't', 'y'] then
    some (.inf false)
  else if l = ['n', 'a', 'n'] then some .nan
  else none

/-- The mantissa of a float literal: digits, optionally with one point,
with at least one digit overall. Returns the digits' value, the number of
fractional digits, and the unconsumed suffix. -/
def parseMantissa (s : List Char) : Option (ℕ × ℕ × List Char) :=
  let p1 := takeDigits s
  match p1.2 with
  | '.' :: r2 =>
    let p2 := takeDigits r2
    if p1.1 = [] && p2.1 = [] then none
    else some (digitsVal (p1.1 ++ p2.1), p2.1.length, p2.2)
  | _ => if p1.1 = [] then none else some (digitsVal p1.1, 0, p1.2)

/-- The exponent suffix of a float literal: empty, or e/E followed by an
optionally signed nonempty digit string reaching the end of the input. -/
def parseExpPart : List Char → Option ℤ
  | [] => some 0
  | c :: cs =>
    if c = 'e' || c = 'E' then
      match cs with
      | '+' :: ds =>
        let p := takeDigits ds
        if p.1 = [] || p.2 ≠ [] then none else some (digitsVal p.1 : ℤ)
      | '-' :: ds =>
        let p := takeDigits ds
        if p.1 = [] || p.2 ≠ [] then none else some (-(digitsVal p.1 : ℤ))
      | ds =>
        let p := takeDigits ds
        if p.1 = [] || p.2 ≠ [] then none else some (digitsVal p.1 : ℤ)
    else none

/-- An unsigned float number literal: mantissa then optional exponent; the
exact decimal value is correctly rounded to binary64 (as Rust's float
parser guarantees). -/
def parseNumber (s : List Char) : Option F64 :=
  match parseMantissa s with
  | none => none
  | some (m, frac, rest) =>
    match parseExpPart rest with
    | none => none
    | some e =>
      let p : ℤ := e - frac
      if 0 ≤ p then some (roundRat ((m : ℤ) * 10 ^ p.toNat) 1)
      else some (roundRat (m : ℤ) (10 ^ (-p).toNat))

/-- An unsigned float literal: a special form or a number. -/
def parseUnsignedF64 (s : List Char) : Option F64 :=
  match parseSpecial s with
  | some v => some v
  | none => parseNumber s

/-- Rust f64::from_str: an optional sign followed by an unsigned float
literal. -/
def parseF64 : List Char → Option F64
  | '+' :: r => parseUnsignedF64 r
  | '-' :: r => (parseUnsignedF64 r).map F64.neg
  | r => parseUnsignedF64 r

/-! ### src/misc/helpers.rs -/

/-- The errors this program can produce; anyhow errors are modelled by the
distinguishable messages the code formats.
invalidNumber carries the message
Invalid field-name: trimmed-text. Must be a valid number.
emptyAmount is
Amount cannot be empty. Please enter a SOL amount.
amountNotPositiveFinite is
Amount must be a positive finite number, got value.
amountTooLarge is
Amount too large: value SOL would overflow.
commissionOutOfRange is
Commission must be between 0 and 100, got value. -/
inductive ScErr where
  | invalidNumber (fieldName : String) (trimmed : List Char)
  | emptyAmount
  | amountNotPositiveFinite (got : F64)
  | amountTooLarge (got : F64)
  | commissionOutOfRange (got : ℕ)
deriving DecidableEq

/-- helpers.rs trim_and_parse: trim the input; empty means None; otherwise
run the type's parser, turning a parse failure into the invalid-number
error naming the field. -/
def trim_and_parse (parse : List Char → Option α) (fieldName : String)
    (s : List Char) : Except ScErr (Option α) :=
  let trimmed := trimChars s
  if trimmed.isEmpty then .ok none
  else
    match parse trimmed with
    | some v => .ok (some v)
    | none => .error (.invalidNumber fieldName trimmed)

/-- helpers.rs Commission: a validated percentage stored as u8. -/
structure Commission where
  value : ℕ
deriving DecidableEq

/-- helpers.rs Commission::from_str: trim and parse as u8, defaulting the
empty input to 0 percent and rejecting values above 100. -/
def Commission.from_str (s : List Char) : Except ScErr Commission :=
  match trim_and_parse parseU8 "commission" s with
  | .error e => .error e
  | .ok none => .ok ⟨0⟩
  | .ok (some commission) =>
    if commission > 100 then .error (.commissionOutOfRange commission)
    else .ok ⟨commission⟩

/-- Modelled from the spec: the lamports-per-SOL conversion constant lives
in src/constants.rs, which is not part of the given sources. The spec fixes
it as the ledger's display-unit ratio and the in-repo test
test_lamports_to_sol_exact_one_sol pins lamports_to_sol 1000000000 = 1.0,
so the constant is one billion. -/
def LAMPORTS_PER_SOL : ℕ := 1000000000

/-- LAMPORTS_PER_SOL as f64 (exact, being far below 2^53). -/
def lamports_per_sol_f64 : F64 := u64_as_f64 LAMPORTS_PER_SOL

/-- u64::MAX as f64; note that 2^64 - 1 rounds up to exactly 2^64. -/
def u64_max_f64 : F64 := u64_as_f64 (2^64 - 1)

/-- helpers.rs SolAmount: a validated SOL quantity stored as f64. -/
structure SolAmount where
  value : F64
deriving DecidableEq

/-- helpers.rs SolAmount::from_str: trim and parse as f64; empty input is
an error; values that are not strictly positive or not finite are
rejected; values whose f64 product with LAMPORTS_PER_SOL exceeds
u64::MAX as f64 are rejected as overflow; otherwise the parsed value is
wrapped. -/
def SolAmount.from_str (s : List Char) : Except ScErr SolAmount :=
  match trim_and_parse parseF64 "amount" s with
  | .error e => .error e
  | .ok none => .error .emptyAmount
  | .ok (some sol) =>
    if f64Le sol (.fin 0) || !sol.is_finite then
      .error (.amountNotPositiveFinite sol)
    else if f64Lt u64_max_f64 (f64Mul sol lamports_per_sol_f64) then
      .error (.amountTooLarge sol)
    else .ok ⟨sol⟩

/-- helpers.rs sol_to_lamports: multiply by LAMPORTS_PER_SOL in f64 and
cast to u64 (saturating, truncating toward zero). -/
def sol_to_lamports (sol : F64) : ℕ :=
  f64_as_u64 (f64Mul sol lamports_per_sol_f64)

/-- helpers.rs SolAmount::to_lamports. -/
def SolAmount.to_lamports (a : SolAmount) : ℕ := sol_to_lamports a.value

/-- helpers.rs lamports_to_sol: convert to f64 and divide by
LAMPORTS_PER_SOL in f64. -/
def lamports_to_sol (lamports : ℕ) : F64 :=
  f64Div (u64_as_f64 lamports) lamports_per_sol_f64

/-! ### src/main.rs: the command dispatch loop

commands.rs is not part of the given sources; CommandExec is modelled from
the spec's CommandOutcome (Modelled from the spec: a tagged variant with
exactly the three states Continue-at-this-menu, carried here by Process as
in main.rs, GoBack one level, and Exit the session). -/

/-- The control-flow outcome a command produces. -/
inductive CommandExec (α : Type) where
  | Process (a : α)
  | GoBack
  | Exit
deriving DecidableEq

/-- What one iteration of the loop observes: the prompt fails, or the
prompted command's process_command fails, or it returns an outcome. -/
inductive IterEvent (ε α : Type) where
  | promptErr (e : ε)
  | processErr (e : ε)
  | outcome (r : CommandExec α)
deriving DecidableEq

/-- How a run of the loop ends: the Ok(CommandExec::Exit) of main after a
break, a propagated failure, or still running after consuming the supplied
events. -/
inductive LoopOutcome (ε α : Type) where
  | finished (r : CommandExec α)
  | failed (e : ε)
  | running
deriving DecidableEq

/-- main.rs lines 30-42: the dispatch loop over a sequence of iteration
events, also counting the prompts issued (one per iteration, including the
final one). The question-mark operators propagate failures out of the
loop; Process and GoBack both continue; Exit breaks, after which main
returns Ok(CommandExec::Exit). -/
def runLoop {ε α : Type} : List (IterEvent ε α) → LoopOutcome ε α × ℕ
  | [] => (.running, 0)
  | .promptErr e :: _ => (.failed e, 1)
  | .processErr e :: _ => (.failed e, 1)
  | .outcome (.Process _) :: rest =>
    let r := runLoop rest
    (r.1, r.2 + 1)
  | .outcome .GoBack :: rest =>
    let r := runLoop rest
    (r.1, r.2 + 1)
  | .outcome .Exit :: _ => (.finished .Exit, 1)

/-! ### helpers.rs build_and_send_tx -/

/-- The two RPC operations the assembler may invoke. -/
inductive RpcCall where
  | getLatestBlockhash
  | sendAndConfirmTransaction
deriving DecidableEq

/-- solana Message::new from an instruction list and a fee payer. -/
structure Message (I P : Type) where
  instructions : List I
  feePayer : Option P
deriving DecidableEq

/-- solana Transaction::new_unsigned: an unsigned envelope around a
message. -/
structure UnsignedTx (I P : Type) where
  message : Message I P
deriving DecidableEq

/-- helpers.rs build_and_send_tx, with the two RPC effects and the signing
step supplied as explicit fallible results, and the sequence of RPC calls
actually issued returned alongside the outcome: fetch the latest
blockhash, build the message from the instructions with the context's
pubkey as fee payer, sign the unsigned transaction with the signers
against that blockhash, then submit and confirm. Each question mark
returns the failing step's error unchanged. -/
def build_and_send_tx {ε Bh I P S Tx Sig : Type}
    (getLatestBlockhash : Except ε Bh)
    (instruction : List I) (pubkey : P) (signers : S)
    (trySign : UnsignedTx I P → S → Bh → Except ε Tx)
    (sendAndConfirmTransaction : Tx → Except ε Sig) :
    Except ε Sig × List RpcCall :=
  match getLatestBlockhash with
  | .error e => (.error e, [.getLatestBlockhash])
  | .ok recentBlockhash =>
    let message : Message I P := ⟨instruction, some pubkey⟩
    let tx : UnsignedTx I P := ⟨message⟩
    match trySign tx signers recentBlockhash with
    | .error e => (.error e, [.getLatestBlockhash])
    | .ok signed =>
      match sendAndConfirmTransaction signed with
      | .error e => (.error e, [.getLatestBlockhash, .sendAndConfirmTransaction])
      | .ok signature => (.ok signature, [.getLatestBlockhash, .sendAndConfirmTransaction])

/-! ### Correctness of the binary64 rounding model -/

lemma log2Go16_spec : ∀ f n, 1 ≤ n → n ≤ f →
    2 ^ log2Go16 f n ≤ n ∧ n < 2 ^ (log2Go16 f n + 1) := by
  intro f
  induction f with
  | zero => intro n h1 h2; omega
  | succ f ih =>
    intro n h1 h2
    rw [log2Go16]
    by_cases hn : n ≤ 1
    · simp [hn]; omega
    · have hm1 : 1 ≤ n / 2 := by omega
      have hm2 : n / 2 ≤ f := by omega
      obtain ⟨hl, hu⟩ := ih (n / 2) hm1 hm2
      rw [if_neg hn]
      constructor
      · rw [pow_succ]
        omega
      · rw [pow_succ]
        omega

lemma log2Go2_spec : ∀ f n, 1 ≤ n → n ≤ f →
    2 ^ log2Go2 f n ≤ n ∧ n < 2 ^ (log2Go2 f n + 1) := by
  intro f
  induction f with
  | zero => intro n h1 h2; omega
  | succ f ih =>
    intro n h1 h2
    rw [log2Go2]
    by_cases hn : n < 2^16
    · rw [if_pos hn]
      exact log2Go16_spec n n h1 le_rfl
    · rw [if_neg hn]
      have hn' : 2^16 ≤ n := le_of_not_lt hn
      have hm1 : 1 ≤ n / 2^16 := (Nat.one_le_div_iff (by norm_num)).mpr hn'
      have hm2 : n / 2^16 ≤ f := by
        have hd : n / 2^16 ≤ n / 2 := Nat.div_le_div_left (by norm_num) (by norm_num)
        omega
      obtain ⟨hl, hu⟩ := ih (n / 2^16) hm1 hm2
      have hdm := Nat.div_add_mod n (2^16)
      have hmlt : n % 2^16 < 2^16 := Nat.mod_lt _ (by norm_num)
      constructor
      · calc (2:ℕ) ^ (log2Go2 f (n / 2^16) + 16) = 2 ^ log2Go2 f (n / 2^16) * 2^16 := by
              rw [pow_add]
          _ ≤ n / 2^16 * 2^16 := Nat.mul_le_mul_right _ hl
          _ ≤ n := by omega
      · calc n < (n / 2^16 + 1) * 2^16 := by
              rw [add_mul, one_mul]
              omega
          _ ≤ 2 ^ (log2Go2 f (n / 2^16) + 1) * 2^16 := Nat.mul_le_mul_right _ (by omega)
          _ = 2 ^ (log2Go2 f (n / 2^16) + 16 + 1) := by
              rw [← pow_add]

lemma log2Go_spec : ∀ f n, 1 ≤ n → n ≤ f →
    2 ^ log2Go f n ≤ n ∧ n < 2 ^ (log2Go f n + 1) := by
  intro f
  induction f with
  | zero => intro n h1 h2; omega
  | succ f ih =>
    intro n h1 h2
    rw [log2Go]
    by_cases hn : n < 2^256
    · rw [if_pos hn]
      exact log2Go2_spec n n h1 le_rfl
    · rw [if_neg hn]
      have hn' : 2^256 ≤ n := le_of_not_lt hn
      have hm1 : 1 ≤ n / 2^256 := (Nat.one_le_div_iff (by norm_num)).mpr hn'
      have hm2 : n / 2^256 ≤ f := by
        have hd : n / 2^256 ≤ n / 2 := Nat.div_le_div_left (by norm_num) (by norm_num)
        have h2 : (2:ℕ)^256 ≤ n := hn'
        have h4 : (4:ℕ) ≤ 2^256 := by norm_num
        omega
      obtain ⟨hl, hu⟩ := ih (n / 2^256) hm1 hm2
      have hdm := Nat.div_add_mod n (2^256)
      have hmlt : n % 2^256 < 2^256 := Nat.mod_lt _ (by norm_num)
      constructor
      · calc (2:ℕ) ^ (log2Go f (n / 2^256) + 256) = 2 ^ log2Go f (n / 2^256) * 2^256 := by
              rw [pow_add]
          _ ≤ n / 2^256 * 2^256 := Nat.mul_le_mul_right _ hl
          _ ≤ n := by omega
      · calc n < (n / 2^256 + 1) * 2^256 := by
              rw [add_mul, one_mul]
              omega
          _ ≤ 2 ^ (log2Go f (n / 2^256) + 1) * 2^256 := Nat.mul_le_mul_right _ (by omega)
          _ = 2 ^ (log2Go f (n / 2^256) + 256 + 1) := by
              rw [← pow_add]

lemma log2F_spec (n : ℕ) (h : 1 ≤ n) :
    2 ^ log2F n ≤ n ∧ n < 2 ^ (log2F n + 1) :=
  log2Go_spec n n h le_rfl

lemma floorLog2Pair_spec (N b : ℕ) (hb : 1 ≤ b) (hbN : b ≤ N) :
    b * 2 ^ floorLog2Pair N b ≤ N ∧ N < b * 2 ^ (floorLog2Pair N b + 1) := by
  have hN : 1 ≤ N := le_trans hb hbN
  obtain ⟨ha1, ha2⟩ := log2F_spec N hN
  obtain ⟨hc1, hc2⟩ := log2F_spec b hb
  rw [floorLog2Pair]
  set a := log2F N with hadef
  set c := log2F b with hcdef
  by_cases ht : b * 2 ^ (a - c) ≤ N
  · rw [if_pos ht]
    refine ⟨ht, ?_⟩
    have hca : c + (a - c) + 1 ≥ a + 1 := by omega
    calc N < 2 ^ (a + 1) := ha2
      _ ≤ 2 ^ (c + (a - c) + 1) := Nat.pow_le_pow_right (by norm_num) hca
      _ = 2 ^ c * 2 ^ (a - c + 1) := by ring
      _ ≤ b * 2 ^ (a - c + 1) := Nat.mul_le_mul_right _ hc1
  · rw [if_neg ht]
    have htpos : 1 ≤ a - c := by
      by_contra hcon
      have : a - c = 0 := by omega
      rw [this] at ht
      simp at ht
      omega
    have hac : c + (a - c) = a := by
      -- a - c ≥ 1 rules out a < c
      by_contra hcon
      have hlt : a < c := by omega
      have : (2:ℕ)^a < 2^c := Nat.pow_lt_pow_right (by norm_num) hlt
      omega
    constructor
    · have h1 : b * 2 ^ (a - c - 1) < 2 ^ (c + 1) * 2 ^ (a - c - 1) := by
        apply Nat.mul_lt_mul_of_lt_of_le hc2 le_rfl
        positivity
      have h2 : (2:ℕ) ^ (c + 1) * 2 ^ (a - c - 1) = 2 ^ a := by
        rw [← pow_add]
        congr 1
        omega
      have h3 : b * 2 ^ (a - c - 1) < 2 ^ a := by omega
      omega
    · have h4 : a - c - 1 + 1 = a - c := by omega
      rw [h4]
      omega

lemma roundHalfEven_exact (N d : ℕ) (hd : 0 < d) (hdvd : d ∣ N) :
    roundHalfEven N d = N / d := by
  obtain ⟨c, rfl⟩ := hdvd
  rw [roundHalfEven]
  have hr : d * c % d = 0 := by
    simp [Nat.mul_mod_right]
  rw [hr]
  simp [hd]

/-- Values that are exact multiples of the unit grid and at most 2^53 units
times any scale are reproduced exactly by the rounding: rounding the real
number (q * b) / b expressed in units 2^-1074 gives exactly q * 2^1074
units whenever q ≤ 2^53. -/
lemma roundPosUnits_exact (q b : ℕ) (hq1 : 1 ≤ q) (hq2 : q ≤ 2^53) (hb : 1 ≤ b) :
    roundPosUnits (q * b) b = q * 2^1074 := by
  rw [roundPosUnits]
  have hN : q * b * 2^1074 = b * (q * 2^1074) := by ring
  have hnotsmall : ¬ q * b * 2^1074 < 2^53 * b := by
    rw [hN]
    rw [not_lt]
    calc (2:ℕ)^53 * b = b * 2^53 := by ring
      _ ≤ b * (q * 2^1074) := by
          apply Nat.mul_le_mul_left
          calc (2:ℕ)^53 ≤ 2^1074 := Nat.pow_le_pow_right (by norm_num) (by norm_num)
            _ ≤ q * 2^1074 := Nat.le_mul_of_pos_left _ hq1
  rw [if_neg hnotsmall]
  have hbN : b ≤ q * b * 2^1074 := by
    calc b = 1 * b * 1 := by ring
      _ ≤ q * b * 2^1074 := by
          apply Nat.mul_le_mul
          · exact Nat.mul_le_mul_right _ hq1
          · exact Nat.one_le_two_pow
  obtain ⟨hts, htb⟩ := floorLog2Pair_spec (q * b * 2^1074) b hb hbN
  set t := floorLog2Pair (q * b * 2^1074) b with htdef
  rw [hN] at hts htb
  have hts' : 2 ^ t ≤ q * 2^1074 := Nat.le_of_mul_le_mul_left hts (by omega)
  have htb' : q * 2^1074 < 2 ^ (t + 1) := Nat.lt_of_mul_lt_mul_left htb
  have hdvd : 2 ^ (t - 52) ∣ q * 2^1074 := by
    by_cases hq53 : q < 2^53
    · have ht1126 : t ≤ 1126 := by
        by_contra hcon
        have h1127 : 1127 ≤ t := by omega
        have : (2:ℕ)^1127 ≤ 2^t := Nat.pow_le_pow_right (by norm_num) h1127
        have hqb : q * 2^1074 < 2^53 * 2^1074 := by
          apply Nat.mul_lt_mul_of_lt_of_le hq53 le_rfl
          positivity
        rw [← pow_add] at hqb
        norm_num at hqb
        omega
      have h1 : (2:ℕ) ^ (t - 52) ∣ 2 ^ 1074 := pow_dvd_pow 2 (by omega)
      exact Dvd.dvd.mul_left h1 q
    · have hq : q = 2^53 := by omega
      subst hq
      rw [← pow_add]
      apply pow_dvd_pow
      -- t + 1 > 1127 is impossible: 2^t ≤ 2^1127
      have : (2:ℕ)^t ≤ 2^(53 + 1074) := by
        rw [pow_add]
        exact hts'
      have ht1127 : t ≤ 1127 := by
        by_contra hcon
        have h1128 : 1128 ≤ t := by omega
        have h2 : (2:ℕ)^1128 ≤ 2^t := Nat.pow_le_pow_right (by norm_num) h1128
        have h3 : (2:ℕ)^(53+1074) < 2^1128 := Nat.pow_lt_pow_right (by norm_num) (by norm_num)
        omega
      omega
  have hdvd2 : b * 2 ^ (t - 52) ∣ b * (q * 2^1074) := mul_dvd_mul_left b hdvd
  rw [hN]
  rw [roundHalfEven_exact _ _ (by positivity) hdvd2]
  rw [Nat.mul_div_mul_left _ _ (by omega)]
  exact Nat.div_mul_cancel hdvd

/-- roundRat is exact on values that are at most 2^53 whole units of
2^-1074 times the denominator. -/
lemma roundRat_exact (q b : ℕ) (hq2 : q ≤ 2^53) (hb : 1 ≤ b) :
    roundRat ((q * b : ℕ) : ℤ) b = .fin ((q : ℤ) * ((2^1074 : ℕ) : ℤ)) := by
  rw [roundRat]
  rw [if_neg (by omega : ¬ b = 0)]
  by_cases hq0 : q = 0
  · subst hq0
    simp
  · have hq1 : 1 ≤ q := by omega
    have hpos : ((q * b : ℕ) : ℤ) ≠ 0 := by
      have : 1 ≤ q * b := Nat.mul_le_mul hq1 hb
      omega
    rw [if_neg hpos]
    have habs : ((q * b : ℕ) : ℤ).natAbs = q * b := Int.natAbs_ofNat _
    rw [habs]
    rw [roundPosUnits_exact q b hq1 hq2 hb]
    have hover : ¬ 2^2098 ≤ q * 2^1074 := by
      rw [not_le]
      calc q * 2^1074 ≤ 2^53 * 2^1074 := Nat.mul_le_mul_right _ hq2
        _ < 2^2098 := by
            rw [← pow_add]
            exact Nat.pow_lt_pow_right (by norm_num) (by norm_num)
    rw [if_neg hover]
    have hneg : ¬ ((q * b : ℕ) : ℤ) < 0 := by omega
    rw [if_neg hneg]
    exact congrArg F64.fin (by push_cast; ring)

/-- u64 → f64 is exact up to 2^53. -/
lemma u64_as_f64_exact (n : ℕ) (h : n ≤ 2^53) :
    u64_as_f64 n = .fin ((n : ℤ) * ((2^1074 : ℕ) : ℤ)) := by
  have := roundRat_exact n 1 h le_rfl
  rw [Nat.mul_one] at this
  rw [u64_as_f64]
  exact this

/-- LAMPORTS_PER_SOL is below 2^53, hence exact as f64. -/
lemma lamports_per_sol_f64_eq :
    lamports_per_sol_f64 = .fin ((1000000000 : ℤ) * ((2^1074 : ℕ) : ℤ)) := by
  rw [lamports_per_sol_f64, LAMPORTS_PER_SOL]
  exact u64_as_f64_exact 1000000000 (by norm_num)

set_option maxRecDepth 100000 in
/-- u64::MAX rounds up to exactly 2^64 as f64 (2^1138 units of 2^-1074). -/
lemma u64_max_f64_eq : u64_max_f64 = .fin (((2^1138 : ℕ) : ℤ)) := by decide

/-- Rounding a ratio with a nonzero denominator never produces NaN. -/
lemma roundRat_ne_nan (n : ℤ) (d : ℕ) (hd : d ≠ 0) : roundRat n d ≠ .nan := by
  rw [roundRat]
  rw [if_neg hd]
  by_cases hn : n = 0
  · simp [hn]
  · rw [if_neg hn]
    by_cases hov : 2^2098 ≤ roundPosUnits n.natAbs d
    · simp [hov]
    · simp only [if_neg hov]
      by_cases hneg : n < 0
      · simp [hneg]
      · simp [hneg]

/-! ### Lemmas about the character-level parsers -/

lemma dropWhile_all {p : Char → Bool} :
    ∀ l : List Char, (∀ c ∈ l, p c = true) → l.dropWhile p = [] := by
  intro l h
  induction l with
  | nil => rfl
  | cons a l ih =>
    rw [List.dropWhile_cons]
    rw [h a (List.mem_cons_self a l)]
    simp only [if_pos]
    exact ih fun c hc => h c (List.mem_cons_of_mem a hc)

lemma dropWhile_none {p : Char → Bool} :
    ∀ l : List Char, (∀ c ∈ l, p c = false) → l.dropWhile p = l := by
  intro l h
  cases l with
  | nil => rfl
  | cons a l =>
    rw [List.dropWhile_cons]
    rw [h a (List.mem_cons_self a l)]
    simp

lemma trimChars_all_ws (s : List Char)
    (h : ∀ c ∈ s, isRustWhitespace c = true) : trimChars s = [] := by
  rw [trimChars]
  rw [dropWhile_all s h]
  rfl

lemma trimChars_no_ws (s : List Char)
    (h : ∀ c ∈ s, isRustWhitespace c = false) : trimChars s = s := by
  rw [trimChars]
  rw [dropWhile_none s h]
  rw [dropWhile_none s.reverse (fun c hc => h c (List.mem_reverse.mp hc))]
  exact List.reverse_reverse s

lemma digit_not_ws (c : Char) (h : isAsciiDigit c = true) :
    isRustWhitespace c = false := by
  rw [isAsciiDigit] at h
  rw [isRustWhitespace]
  simp only [Bool.and_eq_true, decide_eq_true_eq] at h
  simp only [Bool.or_eq_false_iff, decide_eq_false_iff_not, Bool.and_eq_false_iff]
  omega

lemma digitsValAux_nil (acc : ℕ) : digitsValAux acc [] = acc := rfl

lemma digitsValAux_cons (acc : ℕ) (c : Char) (cs : List Char) :
    digitsValAux acc (c :: cs) = digitsValAux (10 * acc + charDigit c) cs := rfl

lemma parseDigitsU8_nil (acc : ℕ) : parseDigitsU8 acc [] = some acc := rfl

lemma parseDigitsU8_cons (acc : ℕ) (c : Char) (cs : List Char) :
    parseDigitsU8 acc (c :: cs) =
      if isAsciiDigit c then
        (if 10 * acc + charDigit c ≤ 255 then
          parseDigitsU8 (10 * acc + charDigit c) cs
        else none)
      else none := rfl

lemma parseU8_cons (c : Char) (cs : List Char) :
    parseU8 (c :: cs) =
      if c = '+' then (if cs = [] then none else parseDigitsU8 0 cs)
      else parseDigitsU8 0 (c :: cs) := rfl

lemma digitsValAux_ge : ∀ (s : List Char) (acc : ℕ), acc ≤ digitsValAux acc s := by
  intro s
  induction s with
  | nil => intro acc; exact le_of_eq (digitsValAux_nil acc).symm
  | cons c cs ih =>
    intro acc
    rw [digitsValAux_cons]
    calc acc ≤ 10 * acc + charDigit c := by omega
      _ ≤ digitsValAux (10 * acc + charDigit c) cs := ih _

lemma parseDigitsU8_spec : ∀ (s : List Char) (acc : ℕ), acc ≤ 255 →
    (∀ c ∈ s, isAsciiDigit c = true) →
    parseDigitsU8 acc s =
      if digitsValAux acc s ≤ 255 then some (digitsValAux acc s) else none := by
  intro s
  induction s with
  | nil =>
    intro acc hacc _
    rw [parseDigitsU8_nil, digitsValAux_nil]
    rw [if_pos hacc]
  | cons c cs ih =>
    intro acc hacc hdig
    rw [parseDigitsU8_cons, digitsValAux_cons]
    rw [hdig c (List.mem_cons_self c cs)]
    simp only [if_true]
    by_cases hv : 10 * acc + charDigit c ≤ 255
    · rw [if_pos hv]
      exact ih _ hv fun x hx => hdig x (List.mem_cons_of_mem c hx)
    · rw [if_neg hv]
      have hge := digitsValAux_ge cs (10 * acc + charDigit c)
      rw [if_neg (by omega)]

lemma parseU8_digits (s : List Char) (hne : s ≠ [])
    (hdig : ∀ c ∈ s, isAsciiDigit c = true) :
    parseU8 s = if digitsVal s ≤ 255 then some (digitsVal s) else none := by
  cases s with
  | nil => exact absurd rfl hne
  | cons c cs =>
    rw [parseU8_cons]
    have hc : c ≠ '+' := by
      intro hcp
      have := hdig c (List.mem_cons_self c cs)
      rw [hcp] at this
      simp [isAsciiDigit] at this
    rw [if_neg hc]
    rw [digitsVal]
    exact parseDigitsU8_spec (c :: cs) 0 (by omega) hdig

/-! ### Lemmas about the dispatch loop -/

lemma runLoop_nil {ε α : Type} : @runLoop ε α [] = (.running, 0) := rfl

lemma runLoop_promptErr {ε α : Type} (e : ε) (rest : List (IterEvent ε α)) :
    runLoop (.promptErr e :: rest) = (.failed e, 1) := rfl

lemma runLoop_processErr {ε α : Type} (e : ε) (rest : List (IterEvent ε α)) :
    runLoop (.processErr e :: rest) = (.failed e, 1) := rfl

lemma runLoop_process {ε α : Type} (a : α) (rest : List (IterEvent ε α)) :
    @runLoop ε α (.outcome (.Process a) :: rest) =
      ((runLoop rest).1, (runLoop rest).2 + 1) := rfl

lemma runLoop_goBack {ε α : Type} (rest : List (IterEvent ε α)) :
    @runLoop ε α (.outcome .GoBack :: rest) =
      ((runLoop rest).1, (runLoop rest).2 + 1) := rfl

lemma runLoop_exit {ε α : Type} (rest : List (IterEvent ε α)) :
    @runLoop ε α (.outcome .Exit :: rest) = (.finished .Exit, 1) := rfl

/-! ### The claims -/

/-- C3: the dispatch loop terminates only when a command produces the Exit
outcome or a failure propagates; for the outcome sequence
[Continue, Continue, GoBack, Exit] it issues exactly 4 prompts and then
terminates (returning Ok(CommandExec::Exit)); for any outcome sequence
containing no Exit, it never terminates on its own. -/
theorem claim_C3 :
    (@runLoop ℕ Unit
        [.outcome (.Process ()), .outcome (.Process ()), .outcome .GoBack,
          .outcome .Exit] = (.finished .Exit, 4))
    ∧ (∀ (ε α : Type) (outs : List (CommandExec α)), .Exit ∉ outs →
        @runLoop ε α (outs.map .outcome) = (.running, outs.length))
    ∧ (∀ (ε α : Type) (evs : List (IterEvent ε α)),
        (runLoop evs).1 ≠ .running →
        (∃ e, .promptErr e ∈ evs ∨ .processErr e ∈ evs) ∨ .outcome .Exit ∈ evs) := by
  refine ⟨rfl, ?_, ?_⟩
  · intro ε α outs
    induction outs with
    | nil => intro _; rfl
    | cons o os ih =>
      intro hno
      have hno' : CommandExec.Exit ∉ os := fun h => hno (List.mem_cons_of_mem o h)
      have ho : o ≠ CommandExec.Exit := fun h => hno (h ▸ List.mem_cons_self o os)
      cases o with
      | Process a =>
        rw [List.map_cons, runLoop_process, ih hno']
        rfl
      | GoBack =>
        rw [List.map_cons, runLoop_goBack, ih hno']
        rfl
      | Exit => exact absurd rfl ho
  · intro ε α evs
    induction evs with
    | nil => intro h; exact absurd rfl h
    | cons ev rest ih =>
      intro h
      cases ev with
      | promptErr e => exact Or.inl ⟨e, Or.inl (List.mem_cons_self _ _)⟩
      | processErr e => exact Or.inl ⟨e, Or.inr (List.mem_cons_self _ _)⟩
      | outcome o =>
        cases o with
        | Process a =>
          rw [runLoop_process] at h
          rcases ih h with ⟨e, he⟩ | hex
          · exact Or.inl ⟨e, he.imp (List.mem_cons_of_mem _) (List.mem_cons_of_mem _)⟩
          · exact Or.inr (List.mem_cons_of_mem _ hex)
        | GoBack =>
          rw [runLoop_goBack] at h
          rcases ih h with ⟨e, he⟩ | hex
          · exact Or.inl ⟨e, he.imp (List.mem_cons_of_mem _) (List.mem_cons_of_mem _)⟩
          · exact Or.inr (List.mem_cons_of_mem _ hex)
        | Exit => exact Or.inr (List.mem_cons_self _ _)

/-- Witness for C3 at concrete inputs. -/
theorem claim_C3_witness :
    @runLoop ℕ Unit ([CommandExec.GoBack, CommandExec.Process ()].map .outcome)
        = (.running, 2)
    ∧ ((∃ e : ℕ, IterEvent.promptErr e ∈ ([.processErr 5] : List (IterEvent ℕ Unit))
          ∨ IterEvent.processErr e ∈ ([.processErr 5] : List (IterEvent ℕ Unit)))
        ∨ IterEvent.outcome CommandExec.Exit ∈ ([.processErr 5] : List (IterEvent ℕ Unit))) :=
  ⟨claim_C3.2.1 ℕ Unit [CommandExec.GoBack, CommandExec.Process ()] (by decide),
    claim_C3.2.2 ℕ Unit [.processErr 5] (by decide)⟩

/-- C5: any error returned by a command invocation is propagated out of the
dispatch loop as a failure of the whole session, not converted into an
outcome: whatever events follow, the loop ends with exactly that error
after the failing iteration's prompt. -/
theorem claim_C5 : ∀ (ε α : Type) (outs : List (CommandExec α)) (e : ε)
    (rest : List (IterEvent ε α)), .Exit ∉ outs →
    runLoop (outs.map .outcome ++ .processErr e :: rest) =
      (.failed e, outs.length + 1) := by
  intro ε α outs e rest
  induction outs with
  | nil => intro _; rfl
  | cons o os ih =>
    intro hno
    have hno' : CommandExec.Exit ∉ os := fun h => hno (List.mem_cons_of_mem o h)
    have ho : o ≠ CommandExec.Exit := fun h => hno (h ▸ List.mem_cons_self o os)
    cases o with
    | Process a =>
      rw [List.map_cons, List.cons_append, runLoop_process, ih hno']
      rfl
    | GoBack =>
      rw [List.map_cons, List.cons_append, runLoop_goBack, ih hno']
      rfl
    | Exit => exact absurd rfl ho

/-- Witness for C5 at concrete inputs. -/
theorem claim_C5_witness :
    runLoop (([CommandExec.Process ()].map .outcome) ++
        .processErr 3 :: [.outcome CommandExec.Exit]) = (.failed (3 : ℕ), 2) :=
  claim_C5 ℕ Unit [CommandExec.Process ()] 3 [.outcome CommandExec.Exit] (by decide)

/-- C10: the dispatch loop treats Process (Continue) and GoBack identically:
both leave the loop state unchanged, the next iteration issues the next
prompt, and the two runs are observationally equal. -/
theorem claim_C10 : ∀ (ε α : Type) (a : α) (rest : List (IterEvent ε α)),
    @runLoop ε α (.outcome (.Process a) :: rest) =
      ((runLoop rest).1, (runLoop rest).2 + 1)
    ∧ @runLoop ε α (.outcome .GoBack :: rest) =
      ((runLoop rest).1, (runLoop rest).2 + 1)
    ∧ @runLoop ε α (.outcome (.Process a) :: rest) =
      @runLoop ε α (.outcome .GoBack :: rest) :=
  fun _ _ _ _ => ⟨rfl, rfl, rfl⟩

/-- C4: in build_and_send_tx, a failing blockhash fetch means no submission
is attempted and the fetch error is returned unchanged; more generally any
failing step aborts the call and surfaces that step's error, each RPC call
happens at most once (no retry), and success requires every step to have
succeeded (no partial-success state). -/
theorem claim_C4 : ∀ (ε Bh I P S Tx Sig : Type)
    (getLatestBlockhash : Except ε Bh) (instruction : List I) (pubkey : P)
    (signers : S) (trySign : UnsignedTx I P → S → Bh → Except ε Tx)
    (sendAndConfirmTransaction : Tx → Except ε Sig),
    (∀ e, getLatestBlockhash = .error e →
      build_and_send_tx getLatestBlockhash instruction pubkey signers trySign
          sendAndConfirmTransaction = (.error e, [.getLatestBlockhash])
      ∧ RpcCall.sendAndConfirmTransaction ∉
          (build_and_send_tx getLatestBlockhash instruction pubkey signers trySign
            sendAndConfirmTransaction).2)
    ∧ (∀ bh e, getLatestBlockhash = .ok bh →
        trySign ⟨⟨instruction, some pubkey⟩⟩ signers bh = .error e →
        build_and_send_tx getLatestBlockhash instruction pubkey signers trySign
          sendAndConfirmTransaction = (.error e, [.getLatestBlockhash]))
    ∧ (∀ bh tx e, getLatestBlockhash = .ok bh →
        trySign ⟨⟨instruction, some pubkey⟩⟩ signers bh = .ok tx →
        sendAndConfirmTransaction tx = .error e →
        build_and_send_tx getLatestBlockhash instruction pubkey signers trySign
          sendAndConfirmTransaction =
          (.error e, [.getLatestBlockhash, .sendAndConfirmTransaction]))
    ∧ (build_and_send_tx getLatestBlockhash instruction pubkey signers trySign
        sendAndConfirmTransaction).2.Nodup
    ∧ (∀ sig, (build_and_send_tx getLatestBlockhash instruction pubkey signers trySign
          sendAndConfirmTransaction).1 = .ok sig →
        ∃ bh tx, getLatestBlockhash = .ok bh
          ∧ trySign ⟨⟨instruction, some pubkey⟩⟩ signers bh = .ok tx
          ∧ sendAndConfirmTransaction tx = .ok sig) := by
  intro ε Bh I P S Tx Sig fetch instruction pubkey signers trySign send
  refine ⟨?_, ?_, ?_, ?_, ?_⟩
  · intro e he
    rw [build_and_send_tx.eq_def, he]
    exact ⟨rfl, by simp⟩
  · intro bh e hf hs
    rw [build_and_send_tx.eq_def, hf]
    simp only []
    rw [hs]
  · intro bh tx e hf hs hsend
    rw [build_and_send_tx.eq_def, hf]
    simp only []
    rw [hs]
    simp only []
    rw [hsend]
  · rw [build_and_send_tx.eq_def]
    cases fetch with
    | error e => simp
    | ok bh =>
      simp only []
      cases trySign ⟨⟨instruction, some pubkey⟩⟩ signers bh with
      | error e => simp
      | ok tx =>
        simp only []
        cases send tx with
        | error e => simp
        | ok sig => simp
  · intro sig hok
    rw [build_and_send_tx.eq_def] at hok
    cases hf : fetch with
    | error e => rw [hf] at hok; simp at hok
    | ok bh =>
      rw [hf] at hok
      simp only [] at hok
      cases hs : trySign ⟨⟨instruction, some pubkey⟩⟩ signers bh with
      | error e => rw [hs] at hok; simp at hok
      | ok tx =>
        rw [hs] at hok
        simp only [] at hok
        cases hsend : send tx with
        | error e => rw [hsend] at hok; simp at hok
        | ok sig2 =>
          rw [hsend] at hok
          simp only [] at hok
          have hss : sig2 = sig := by injection hok
          exact ⟨bh, tx, rfl, hs, by rw [hsend, hss]⟩

/-- Witness for C4 at concrete inputs. -/
theorem claim_C4_witness :
    @build_and_send_tx ℕ ℕ ℕ ℕ ℕ ℕ ℕ
        (.error 7) [] 0 0 (fun _ _ _ => .ok 0) (fun _ => .ok 0)
      = (.error 7, [.getLatestBlockhash])
    ∧ RpcCall.sendAndConfirmTransaction ∉
        (@build_and_send_tx ℕ ℕ ℕ ℕ ℕ ℕ ℕ
          (.error 7) [] 0 0 (fun _ _ _ => .ok 0) (fun _ => .ok 0)).2 :=
  (claim_C4 ℕ ℕ ℕ ℕ ℕ ℕ ℕ (.error 7) [] 0 0 (fun _ _ _ => .ok 0)
    (fun _ => .ok 0)).1 7 rfl

/-- On input that is nonempty and contains no whitespace, trim_and_parse
just runs the parser on the raw input. -/
lemma trim_and_parse_no_ws {α : Type} (parse : List Char → Option α)
    (fieldName : String) (s : List Char) (hne : s ≠ [])
    (hnw : ∀ c ∈ s, isRustWhitespace c = false) :
    trim_and_parse parse fieldName s =
      match parse s with
      | some v => .ok (some v)
      | none => .error (.invalidNumber fieldName s) := by
  rw [trim_and_parse, trimChars_no_ws s hnw]
  have hie : s.isEmpty = false := by
    cases s with
    | nil => exact absurd rfl hne
    | cons c cs => rfl
  rw [hie]
  rw [if_neg Bool.false_ne_true]
  rfl

/-- C6: parsing an empty or whitespace-only string as a SolAmount fails
with the amount-cannot-be-empty error, whereas parsing the same string as
a Commission succeeds with value 0. -/
theorem claim_C6 : ∀ s : List Char, (∀ c ∈ s, isRustWhitespace c = true) →
    Commission.from_str s = .ok ⟨0⟩
    ∧ SolAmount.from_str s = .error .emptyAmount := by
  intro s hws
  have ht : trimChars s = [] := trimChars_all_ws s hws
  have hempty : trim_and_parse (parseU8) "commission" s = .ok (none : Option ℕ) := by
    rw [trim_and_parse, ht]
    rfl
  have hempty2 : trim_and_parse (parseF64) "amount" s = .ok (none : Option F64) := by
    rw [trim_and_parse, ht]
    rfl
  constructor
  · rw [Commission.from_str, hempty]
  · rw [SolAmount.from_str, hempty2]

/-- Witness for C6: the one-space string. -/
theorem claim_C6_witness :
    Commission.from_str [' '] = .ok ⟨0⟩
    ∧ SolAmount.from_str [' '] = .error .emptyAmount :=
  claim_C6 [' '] (by decide)

/-- C7: every integer in [0, 100] written as a digit string parses as a
Commission with exactly that value; every digit string with value above
100 fails (...rejected by the range check up to 255, by the u8 parser
beyond); and every negative decimal text fails (the unsigned parser
rejects the minus sign). -/
theorem claim_C7 :
    (∀ s : List Char, s ≠ [] → (∀ c ∈ s, isAsciiDigit c = true) →
      digitsVal s ≤ 100 → Commission.from_str s = .ok ⟨digitsVal s⟩)
    ∧ (∀ s : List Char, s ≠ [] → (∀ c ∈ s, isAsciiDigit c = true) →
      100 < digitsVal s → (Commission.from_str s).isOk = false)
    ∧ (∀ s : List Char, (∀ c ∈ s, isAsciiDigit c = true) →
      (Commission.from_str ('-' :: s)).isOk = false) := by
  refine ⟨?_, ?_, ?_⟩
  · intro s hne hdig hle
    have hnw : ∀ c ∈ s, isRustWhitespace c = false :=
      fun c hc => digit_not_ws c (hdig c hc)
    rw [Commission.from_str, trim_and_parse_no_ws parseU8 "commission" s hne hnw]
    rw [parseU8_digits s hne hdig]
    rw [if_pos (by omega)]
    simp only []
    rw [if_neg (by omega)]
  · intro s hne hdig hgt
    have hnw : ∀ c ∈ s, isRustWhitespace c = false :=
      fun c hc => digit_not_ws c (hdig c hc)
    rw [Commission.from_str, trim_and_parse_no_ws parseU8 "commission" s hne hnw]
    rw [parseU8_digits s hne hdig]
    by_cases h255 : digitsVal s ≤ 255
    · rw [if_pos h255]
      simp only []
      rw [if_pos (by omega)]
      rfl
    · rw [if_neg h255]
      rfl
  · intro s hdig
    have hne : ('-' :: s) ≠ [] := by simp
    have hnw : ∀ c ∈ ('-' :: s), isRustWhitespace c = false := by
      intro c hc
      rcases List.mem_cons.mp hc with rfl | hc2
      · decide
      · exact digit_not_ws c (hdig c hc2)
    rw [Commission.from_str, trim_and_parse_no_ws parseU8 "commission" _ hne hnw]
    have hparse : parseU8 ('-' :: s) = none := by
      rw [parseU8_cons]
      rw [if_neg (by decide)]
      rw [parseDigitsU8_cons]
      rw [show isAsciiDigit '-' = false from by decide]
      rfl
    rw [hparse]
    rfl

/-- Witness for C7 at concrete inputs. -/
theorem claim_C7_witness :
    Commission.from_str ['4', '2'] = .ok ⟨digitsVal ['4', '2']⟩
    ∧ (Commission.from_str ['1', '0', '1']).isOk = false
    ∧ (Commission.from_str ['-', '5']).isOk = false :=
  ⟨claim_C7.1 ['4', '2'] (by decide) (by decide) (by decide),
    claim_C7.2.1 ['1', '0', '1'] (by decide) (by decide) (by decide),
    claim_C7.2.2 ['5'] (by decide)⟩

/-- Reduction of SolAmount::from_str once the trim-and-parse step has
produced a value. -/
lemma from_str_some (s : List Char) (v : F64)
    (hp : trim_and_parse parseF64 "amount" s = .ok (some v)) :
    SolAmount.from_str s =
      if (f64Le v (.fin 0) || !v.is_finite) = true then
        .error (.amountNotPositiveFinite v)
      else if f64Lt u64_max_f64 (f64Mul v lamports_per_sol_f64) = true then
        .error (.amountTooLarge v)
      else .ok ⟨v⟩ := by
  rw [SolAmount.from_str, hp]

/-- C8: SolAmount::from_str rejects every parsed value that is non-positive
or non-finite with the positive-finite error, and on success it wraps
exactly the parsed value, which is therefore a strictly positive finite
number. -/
theorem claim_C8 :
    (∀ (s : List Char) (v : F64),
      trim_and_parse parseF64 "amount" s = .ok (some v) →
      ((∃ k, v = .fin k ∧ k ≤ 0) ∨ v = .nan ∨ (∃ b, v = .inf b)) →
      SolAmount.from_str s = .error (.amountNotPositiveFinite v))
    ∧ (∀ (s : List Char) (a : SolAmount),
      SolAmount.from_str s = .ok a →
      ∃ k, a.value = .fin k ∧ 0 < k ∧
        trim_and_parse parseF64 "amount" s = .ok (some (.fin k))) := by
  constructor
  · intro s v hp hbad
    rw [from_str_some s v hp]
    have hcond : (f64Le v (.fin 0) || !v.is_finite) = true := by
      rcases hbad with ⟨k, rfl, hk⟩ | rfl | ⟨b, rfl⟩
      · simp [f64Le, hk]
      · rfl
      · simp [F64.is_finite]
    rw [if_pos hcond]
  · intro s a hok
    cases hp : trim_and_parse parseF64 "amount" s with
    | error e =>
      rw [SolAmount.from_str, hp] at hok
      exact absurd (show (Except.error e : Except ScErr SolAmount) = .ok a from hok)
        (by simp)
    | ok o =>
      cases o with
      | none =>
        rw [SolAmount.from_str, hp] at hok
        exact absurd
          (show (Except.error ScErr.emptyAmount : Except ScErr SolAmount) = .ok a
            from hok) (by simp)
      | some v =>
        rw [from_str_some s v hp] at hok
        cases v with
        | nan =>
          rw [if_pos (by rfl)] at hok
          exact absurd hok (by simp)
        | inf b =>
          rw [if_pos (by simp [F64.is_finite])] at hok
          exact absurd hok (by simp)
        | fin k =>
          by_cases hk : k ≤ 0
          · rw [if_pos (by simp [f64Le, hk])] at hok
            exact absurd hok (by simp)
          · rw [if_neg (by simp [f64Le, F64.is_finite]; omega)] at hok
            by_cases hov :
                f64Lt u64_max_f64 (f64Mul (.fin k) lamports_per_sol_f64) = true
            · rw [if_pos hov] at hok
              exact absurd hok (by simp)
            · rw [if_neg hov] at hok
              have h := (Except.ok.injEq _ _).mp hok
              exact ⟨k, by rw [← h], by omega, rfl⟩

/-- Witness for C8 at concrete inputs. -/
theorem claim_C8_witness :
    SolAmount.from_str ['0'] = .error (.amountNotPositiveFinite (.fin 0)) :=
  claim_C8.1 ['0'] (.fin 0) (by decide) (Or.inl ⟨0, rfl, le_refl 0⟩)

/-- C9: sol_to_lamports is total on every f64 input: a NaN or negative
product casts to 0, a product at or above 2^64 (2^1138 units, or positive
infinity) saturates to u64::MAX, and any other product is truncated toward
zero (integer division of the units by 2^1074). -/
theorem claim_C9 : ∀ v : F64,
    (f64Mul v lamports_per_sol_f64 = .nan → sol_to_lamports v = 0)
    ∧ (f64Mul v lamports_per_sol_f64 = .inf true → sol_to_lamports v = 0)
    ∧ (f64Mul v lamports_per_sol_f64 = .inf false →
        sol_to_lamports v = 2^64 - 1)
    ∧ (∀ k : ℤ, f64Mul v lamports_per_sol_f64 = .fin k → k < 0 →
        sol_to_lamports v = 0)
    ∧ (∀ k : ℤ, f64Mul v lamports_per_sol_f64 = .fin k →
        ((2^1138 : ℕ) : ℤ) ≤ k → sol_to_lamports v = 2^64 - 1)
    ∧ (∀ k : ℤ, f64Mul v lamports_per_sol_f64 = .fin k → 0 ≤ k →
        k < ((2^1138 : ℕ) : ℤ) → sol_to_lamports v = k.toNat / 2^1074) := by
  intro v
  refine ⟨?_, ?_, ?_, ?_, ?_, ?_⟩
  · intro h
    rw [sol_to_lamports, h]
    rfl
  · intro h
    rw [sol_to_lamports, h]
    rfl
  · intro h
    rw [sol_to_lamports, h]
    rfl
  · intro k h hneg
    rw [sol_to_lamports, h, f64_as_u64]
    rw [if_pos hneg]
  · intro k h hbig
    rw [sol_to_lamports, h, f64_as_u64]
    rw [if_neg (by omega)]
    have hk : 2^1138 ≤ k.toNat := by omega
    have hdiv : 2^64 ≤ k.toNat / 2^1074 := by
      rw [Nat.le_div_iff_mul_le (by positivity)]
      calc 2^64 * 2^1074 = 2^1138 := by rw [← pow_add]
        _ ≤ k.toNat := hk
    have : 2^64 - 1 ≤ k.toNat / 2^1074 := by omega
    omega
  · intro k h h0 hlt
    rw [sol_to_lamports, h, f64_as_u64]
    rw [if_neg (by omega)]
    have hk : k.toNat < 2^1138 := by omega
    have hdiv : k.toNat / 2^1074 < 2^64 := by
      rw [Nat.div_lt_iff_lt_mul (by positivity)]
      calc k.toNat < 2^1138 := hk
        _ = 2^64 * 2^1074 := by rw [← pow_add]
    have : k.toNat / 2^1074 ≤ 2^64 - 1 := by omega
    omega

set_option maxRecDepth 40000 in
/-- Witness for C9: the NaN input. -/
theorem claim_C9_witness : sol_to_lamports F64.nan = 0 :=
  (claim_C9 F64.nan).1 (by decide)

lemma f64Mul_fin (x y : ℤ) : f64Mul (.fin x) (.fin y) = roundRat (x * y) (2^2148) := rfl

lemma f64Div_fin (x y : ℤ) :
    f64Div (.fin x) (.fin y) =
      if y = 0 then (if x = 0 then .nan else .inf (decide (x < 0)))
      else if 0 < y then roundRat x y.toNat
      else roundRat (-x) (-y).toNat := rfl

lemma f64_as_u64_fin (k : ℤ) :
    f64_as_u64 (.fin k) =
      if k < 0 then 0 else min (k.toNat / 2^1074) (2^64 - 1) := rfl

lemma f64Lt_fin (x y : ℤ) : f64Lt (.fin x) (.fin y) = decide (x < y) := rfl

lemma f64Le_fin (x y : ℤ) : f64Le (.fin x) (.fin y) = decide (x ≤ y) := rfl

lemma f64Lt_fin_inf (x : ℤ) (b : Bool) : f64Lt (.fin x) (.inf b) = !b := rfl

lemma f64Le_inf_fin (b : Bool) (x : ℤ) : f64Le (.inf b) (.fin x) = b := rfl

lemma isOk_error {ε α : Type} (e : ε) :
    (Except.error e : Except ε α).isOk = false := rfl

lemma isOk_ok {ε α : Type} (a : α) :
    (Except.ok a : Except ε α).isOk = true := rfl

/-- C2 (amended): the lamports-to-SOL-to-lamports round trip is exact for
every lamport quantity that is a multiple of LAMPORTS_PER_SOL and at most
2^53 (the range where binary64 represents the quantity exactly; above it
the u64-to-f64 conversion itself loses low bits, see the counterexample);
and the conversion truncates the f64 product toward zero rather than
rounding: for a finite nonnegative in-range product of k units, the result
q satisfies q * 2^1074 ≤ k < (q + 1) * 2^1074. -/
theorem claim_C2 :
    (∀ L : ℕ, L % LAMPORTS_PER_SOL = 0 → L ≤ 2^53 →
      sol_to_lamports (lamports_to_sol L) = L)
    ∧ (∀ (v : F64) (k : ℤ), f64Mul v lamports_per_sol_f64 = .fin k →
        0 ≤ k → k < ((2^1138 : ℕ) : ℤ) →
        sol_to_lamports v * 2^1074 ≤ k.toNat
          ∧ k.toNat < (sol_to_lamports v + 1) * 2^1074) := by
  constructor
  · intro L hmod hle
    obtain ⟨q, hq⟩ := Nat.dvd_of_mod_eq_zero hmod
    have hC : LAMPORTS_PER_SOL = 1000000000 := rfl
    rw [hC] at hq
    have hqle : q ≤ 2^53 := by
      have h1 : q ≤ 1000000000 * q := by omega
      omega
    rw [lamports_to_sol, sol_to_lamports]
    rw [u64_as_f64_exact L hle, lamports_per_sol_f64_eq]
    rw [f64Div_fin]
    have hu : (0:ℤ) < ((2^1074 : ℕ) : ℤ) := Int.natCast_pos.mpr (by positivity)
    have hypos : (0:ℤ) < (1000000000 : ℤ) * ((2^1074 : ℕ) : ℤ) :=
      mul_pos (by norm_num) hu
    rw [if_neg (ne_of_gt hypos), if_pos hypos]
    have htn : ((1000000000 : ℤ) * ((2^1074 : ℕ) : ℤ)).toNat
        = 1000000000 * 2^1074 := by
      rw [show (1000000000:ℤ) * ((2^1074 : ℕ):ℤ) = ((1000000000 * 2^1074 : ℕ) : ℤ)
        from by push_cast; ring]
      exact Int.toNat_natCast _
    rw [htn]
    have hx : (L : ℤ) * ((2^1074 : ℕ) : ℤ)
        = ((q * (1000000000 * 2^1074) : ℕ) : ℤ) := by
      push_cast
      rw [hq]
      push_cast
      ring
    rw [hx, roundRat_exact q _ hqle (by positivity : 0 < 1000000000 * 2^1074)]
    rw [f64Mul_fin]
    have hx2 : (q : ℤ) * ((2^1074 : ℕ) : ℤ) * ((1000000000 : ℤ) * ((2^1074 : ℕ) : ℤ))
        = ((L * 2^2148 : ℕ) : ℤ) := by
      push_cast
      rw [hq]
      push_cast
      ring
    rw [hx2, roundRat_exact L (2^2148) hle (by positivity : 0 < 2^2148)]
    rw [f64_as_u64_fin]
    have h0 : (0:ℤ) ≤ (L : ℤ) * ((2^1074 : ℕ) : ℤ) :=
      mul_nonneg (Int.natCast_nonneg L) (Int.natCast_nonneg _)
    rw [if_neg (by omega)]
    have ht : ((L : ℤ) * ((2^1074 : ℕ) : ℤ)).toNat = L * 2^1074 := by
      rw [show (L:ℤ) * ((2^1074:ℕ):ℤ) = ((L * 2^1074 : ℕ):ℤ) from by push_cast; ring]
      exact Int.toNat_natCast _
    rw [ht, Nat.mul_div_cancel _ (by positivity)]
    have h53 : (2:ℕ)^53 = 9007199254740992 := by norm_num
    have h64 : (2:ℕ)^64 = 18446744073709551616 := by norm_num
    exact Nat.min_eq_left (by omega)
  · intro v k h h0 hlt
    rw [sol_to_lamports, h, f64_as_u64_fin]
    rw [if_neg (by omega)]
    have hpow : (2:ℕ)^1138 = 2^64 * 2^1074 := by rw [← pow_add]
    have hk : k.toNat < 2^64 * 2^1074 := by omega
    have hdm := Nat.div_add_mod k.toNat (2^1074)
    have hml : k.toNat % 2^1074 < 2^1074 := Nat.mod_lt _ (by positivity)
    have hdiv : k.toNat / 2^1074 < 2^64 := by
      rw [Nat.div_lt_iff_lt_mul (by positivity)]
      omega
    rw [Nat.min_eq_left (by omega)]
    omega

set_option maxRecDepth 100000 in
/-- C2 counterexample: L = 18446744073000000000 lamports is an exact
multiple of LAMPORTS_PER_SOL and representable as u64, yet the
sol_to_lamports/lamports_to_sol round trip returns 18446744072999999488,
which differs from L: the claim's round-trip identity fails for large
representable multiples because the u64-to-f64 conversion and the f64
division each round. -/
theorem claim_C2_counterexample :
    (18446744073000000000 : ℕ) % LAMPORTS_PER_SOL = 0
    ∧ (18446744073000000000 : ℕ) ≤ 2^64 - 1
    ∧ sol_to_lamports (lamports_to_sol 18446744073000000000) = 18446744072999999488
    ∧ (18446744072999999488 : ℕ) ≠ 18446744073000000000 :=
  ⟨by decide, by decide, by decide, by decide⟩

/-- Witness for C2 at a concrete input: one whole SOL round-trips. -/
theorem claim_C2_witness :
    sol_to_lamports (lamports_to_sol 1000000000) = 1000000000 :=
  claim_C2.1 1000000000 (by decide) (by decide)

/-- C1 (amended): for text whose trimmed content parses as a positive
finite double of k units, SolAmount::from_str succeeds exactly when the
double-precision product of the parsed value with LAMPORTS_PER_SOL is at
most u64::MAX as f64 — which rounds up to exactly 2^64 — and when that
product exceeds it, the overflow error carries the parsed value. The
comparison is performed on the rounded f64 product against the rounded
2^64, not on the exact mathematical product against u64::MAX, so inputs
whose exact product lands in (u64::MAX, 2^64] are still accepted (see the
counterexample). -/
theorem claim_C1 : ∀ (s : List Char) (k : ℤ),
    trim_and_parse parseF64 "amount" s = .ok (some (.fin k)) → 0 < k →
    (((SolAmount.from_str s).isOk = true) ↔
      f64Le (f64Mul (.fin k) lamports_per_sol_f64) u64_max_f64 = true)
    ∧ (f64Lt u64_max_f64 (f64Mul (.fin k) lamports_per_sol_f64) = true →
      SolAmount.from_str s = .error (.amountTooLarge (.fin k))) := by
  intro s k hp hk
  rw [from_str_some s (.fin k) hp]
  rw [if_neg (by simp [f64Le, F64.is_finite]; omega)]
  have hnn : f64Mul (.fin k) lamports_per_sol_f64 ≠ .nan := by
    rw [lamports_per_sol_f64_eq, f64Mul_fin]
    exact roundRat_ne_nan _ _ (by positivity : (0:ℕ) < 2^2148).ne'
  cases hm : f64Mul (.fin k) lamports_per_sol_f64 with
  | nan => exact absurd hm hnn
  | inf b =>
    rw [u64_max_f64_eq]
    cases b with
    | false =>
      refine ⟨?_, ?_⟩
      · rw [if_pos (by rfl)]
        constructor
        · intro habs
          rw [isOk_error] at habs
          exact absurd habs Bool.false_ne_true
        · intro habs
          rw [show f64Le (F64.inf false) (.fin ((2^1138 : ℕ) : ℤ)) = false
            from rfl] at habs
          exact absurd habs Bool.false_ne_true
      · intro _
        rw [if_pos (by rfl)]
    | true =>
      refine ⟨?_, ?_⟩
      · rw [if_neg (by rw [show f64Lt (F64.fin ((2^1138 : ℕ) : ℤ)) (.inf true) = false
            from rfl]; exact Bool.false_ne_true)]
        constructor
        · intro _
          rfl
        · intro _
          rw [isOk_ok]
      · intro habs
        rw [show f64Lt (F64.fin ((2^1138 : ℕ) : ℤ)) (.inf true) = false
          from rfl] at habs
        exact absurd habs Bool.false_ne_true
  | fin m =>
    rw [u64_max_f64_eq]
    rw [f64Lt_fin, f64Le_fin]
    by_cases hlt : ((2^1138 : ℕ) : ℤ) < m
    · rw [if_pos (by simp only [decide_eq_true_eq]; exact hlt)]
      refine ⟨?_, fun _ => rfl⟩
      constructor
      · intro habs
        rw [isOk_error] at habs
        exact absurd habs Bool.false_ne_true
      · intro habs
        simp only [decide_eq_true_eq] at habs
        omega
    · rw [if_neg (by simp only [decide_eq_true_eq]; omega)]
      refine ⟨?_, ?_⟩
      · constructor
        · intro _
          simp only [decide_eq_true_eq]
          omega
        · intro _
          rw [isOk_ok]
      · intro habs
        simp only [decide_eq_true_eq] at habs
        omega

set_option maxRecDepth 400000 in
/-- C1 counterexample: the text 18446744073.709551616 denotes exactly
18446744073709551616 / 10^9 = 2^64 / 10^9 SOL, so its exact value times
LAMPORTS_PER_SOL is 2^64, which exceeds u64::MAX — the claim as stated
demands an overflow failure — yet SolAmount::from_str accepts it: the
parsed double times 1e9 rounds to exactly 2^64, and the code compares
against u64::MAX as f64, which also rounds to 2^64. -/
theorem claim_C1_counterexample :
    (SolAmount.from_str "18446744073.709551616".data).isOk = true
    ∧ (2^64 - 1) * 10^9 < 18446744073709551616 * LAMPORTS_PER_SOL :=
  ⟨by decide, by decide⟩

set_option maxRecDepth 400000 in
/-- Witness for C1 at a concrete input: the text 1 parses to one SOL
(2^1074 units) and is accepted. -/
theorem claim_C1_witness :
    (((SolAmount.from_str ['1']).isOk = true) ↔
      f64Le (f64Mul (.fin ((2^1074 : ℕ) : ℤ)) lamports_per_sol_f64)
        u64_max_f64 = true)
    ∧ (f64Lt u64_max_f64 (f64Mul (.fin ((2^1074 : ℕ) : ℤ))
          lamports_per_sol_f64) = true →
      SolAmount.from_str ['1'] =
        .error (.amountTooLarge (.fin ((2^1074 : ℕ) : ℤ)))) :=
  claim_C1 ['1'] ((2^1074 : ℕ) : ℤ) (by decide) (by decide)

end Scilla

